import Mathlib

/-!
# Verification of the VessMorphoVis analysis kernels

Shallow embedding of the statistics kernels of the VessMorphoVis repository:

* `vmv/analysis/kernels/sections.py` — per-section length, short-section test,
  surface area and volume;
* `vmv/analysis/kernels/samples.py` — sample counts, radius distributions,
  zero-radius detection / correction, radius summaries;
* `vmv/file/writers/strings/strings.py` — distribution-to-file writer.

Modelling conventions: Python floats are modelled as real numbers; the
in-place radius correction is modelled as a function returning the updated
section list; `analyze_samples_radii`, which raises on an empty sample set
(`min`/`max` of an empty sequence), returns an `Option`; the file produced by
a writer is modelled as the list of characters the sequence of `write` calls
appends to the freshly truncated file.
-/

namespace VMV

/-- A 3D point, mirroring the Blender `mathutils.Vector` stored in
`sample.point`. -/
structure Point where
  x : ℝ
  y : ℝ
  z : ℝ

instance : Inhabited Point := ⟨⟨0, 0, 0⟩⟩

/-- Vector difference `p0 - p1`. -/
noncomputable def Point.sub (p q : Point) : Point :=
  ⟨p.x - q.x, p.y - q.y, p.z - q.z⟩

/-- Euclidean norm, mirroring `mathutils.Vector.length`. -/
noncomputable def Point.length (v : Point) : ℝ :=
  Real.sqrt (v.x ^ 2 + v.y ^ 2 + v.z ^ 2)

/-- A morphology sample: a 3D position and a radius. -/
structure Sample where
  point : Point
  radius : ℝ

instance : Inhabited Sample := ⟨⟨default, 0⟩⟩

/-- A section: an ordered list of samples. -/
structure Section where
  samples : List Sample

/-- A morphology object: the ordered list of its sections. -/
structure Morphology where
  sections_list : List Section

/-- The list of consecutive sample pairs of a section, i.e. the pairs
`(samples[i], samples[i+1])` for `i in range(len(samples) - 1)`. -/
def consecutivePairs (l : List Sample) : List (Sample × Sample) :=
  l.zip l.tail

/-- `compute_section_length` (sections.py): sum over `i in range(len-1)` of
`(samples[i].point - samples[i+1].point).length`. -/
noncomputable def compute_section_length (s : Section) : ℝ :=
  ((consecutivePairs s.samples).map
    (fun pq => (Point.sub pq.1.point pq.2.point).length)).sum

/-- `is_short_section` (sections.py): if the section has more than one
sample, compare its length with `(samples[0].radius + samples[-1].radius) * 2`
and report `True` when the length is strictly smaller; otherwise `False`. -/
noncomputable def is_short_section (s : Section) : Bool :=
  if 1 < s.samples.length then
    if compute_section_length s
        < ((s.samples.getD 0 default).radius
            + (s.samples.getLast?.getD default).radius) * 2 then
      true
    else
      false
  else
    false

/-- `compute_section_surface_area` (sections.py): `0` below two samples,
otherwise for each consecutive pair the lateral term
`pi * (r0 + r1) * sqrt((r0 - r1)*(r0 - r1) + segment_length)` — the source
adds the segment length, not its square, under the square root — plus the cap
term `pi * (r0*r0 + r1*r1)`. -/
noncomputable def compute_section_surface_area (s : Section) : ℝ :=
  if s.samples.length < 2 then 0
  else
    ((consecutivePairs s.samples).map (fun pq =>
      Real.pi * (pq.1.radius + pq.2.radius)
          * Real.sqrt ((pq.1.radius - pq.2.radius) * (pq.1.radius - pq.2.radius)
              + (Point.sub pq.1.point pq.2.point).length)
        + Real.pi * (pq.1.radius * pq.1.radius + pq.2.radius * pq.2.radius))).sum

/-- `compute_section_volume` (sections.py): `0` below two samples, otherwise
the sum over consecutive pairs of
`(1/3) * pi * segment_length * (r0*r0 + r0*r1 + r1*r1)`. -/
noncomputable def compute_section_volume (s : Section) : ℝ :=
  if s.samples.length < 2 then 0
  else
    ((consecutivePairs s.samples).map (fun pq =>
      (1 / 3) * Real.pi * (Point.sub pq.1.point pq.2.point).length
        * (pq.1.radius * pq.1.radius + pq.1.radius * pq.2.radius
            + pq.2.radius * pq.2.radius))).sum

/-- `compute_number_of_samples_in_section` (samples.py): `len(section.samples)`. -/
def compute_number_of_samples_in_section (s : Section) : ℕ :=
  s.samples.length

/-- `compute_total_of_number_samples_from_sections_list` (samples.py): the sum
of the per-section sample counts. -/
def compute_total_of_number_samples_from_sections_list (l : List Section) : ℕ :=
  (l.map compute_number_of_samples_in_section).sum

/-- `compute_sample_radius_distribution` (samples.py): all radii, outer loop
over the sections, inner loop over each section's samples. -/
def compute_sample_radius_distribution (m : Morphology) : List ℝ :=
  m.sections_list.flatMap (fun sec => sec.samples.map (fun smp => smp.radius))

/-- Per-section body of `correct_samples_with_zero_radii` (samples.py): the
mean radius is accumulated and divided by the sample count, then every sample
with `radius < epsilon` has its radius overwritten with that mean. -/
noncomputable def correctSectionSamples (epsilon : ℝ) (sec : Section) : Section :=
  let mean_radius := (sec.samples.map (fun smp => smp.radius)).sum
      / (sec.samples.length : ℝ)
  ⟨sec.samples.map (fun smp =>
    if smp.radius < epsilon then { smp with radius := mean_radius } else smp)⟩

/-- `correct_samples_with_zero_radii` (samples.py): iterates over the section
list; a section with zero samples makes the whole procedure `return`,
leaving that section and all later ones untouched; otherwise the section is
corrected via its mean radius and the iteration continues. -/
noncomputable def correct_samples_with_zero_radii :
    List Section → ℝ → List Section
  | [], _ => []
  | sec :: rest, epsilon =>
    if sec.samples.length = 0 then sec :: rest
    else correctSectionSamples epsilon sec
        :: correct_samples_with_zero_radii rest epsilon

/-- The flattened radii list `[sample.radius for section in sections_list for
sample in section.samples]` of `analyze_samples_radii` (samples.py). -/
def sectionsRadiiList (l : List Section) : List ℝ :=
  l.flatMap (fun sec => sec.samples.map (fun smp => smp.radius))

/-- `analyze_samples_radii` (samples.py): builds the flattened radii list and
the sublist of radii below `epsilon`, then returns
`(min, max, sum/len, len(zero_radii))`.  Python's `min`/`max` raise on an
empty sequence, modelled by `none`. -/
noncomputable def analyze_samples_radii (sections_list : List Section)
    (epsilon : ℝ) : Option (ℝ × ℝ × ℝ × ℕ) :=
  let radii_list := sectionsRadiiList sections_list
  let zero_radii := radii_list.filter (fun r => decide (r < epsilon))
  match radii_list with
  | [] => none
  | r :: rs =>
    some (rs.foldl min r, rs.foldl max r,
      radii_list.sum / (radii_list.length : ℝ), zero_radii.length)

/-- `write_distribution_to_file` (strings.py): the file is opened with mode
`'w'` (truncated to empty), then for each element `str(element) + '\n'` is
written.  The result is the final file content; the stringification is a
parameter `str`. -/
def write_distribution_to_file {α : Type} (distribution : List α)
    (str : α → List Char) : List Char :=
  distribution.foldl (fun file_handle e => file_handle ++ (str e ++ ['\n'])) []

/-- Splitting a text file into its newline-terminated lines (the read-back
side of the round-trip property). -/
def splitLines : List Char → List (List Char)
  | [] => []
  | c :: cs =>
    if c = '\n' then [] :: splitLines cs
    else
      match splitLines cs with
      | [] => [[c]]
      | l :: ls => (c :: l) :: ls

/-! ## Helper lemmas -/

/-- Evaluation helper for square roots of perfect squares. -/
lemma sqrt_eq_of_sq {a b : ℝ} (hb : 0 ≤ b) (h : b ^ 2 = a) :
    Real.sqrt a = b := by
  rw [← h, Real.sqrt_sq hb]

/-- A fold over the consecutive pairs of a list equals the corresponding
index-based sum over `range (length - 1)`. -/
lemma consecutivePairs_map_sum (f : Sample → Sample → ℝ) :
    ∀ l : List Sample,
      ((consecutivePairs l).map (fun pq => f pq.1 pq.2)).sum
        = ∑ i in Finset.range (l.length - 1),
            f (l.getD i default) (l.getD (i + 1) default)
  | [] => by simp [consecutivePairs]
  | [a] => by simp [consecutivePairs]
  | a :: b :: t => by
    have ih := consecutivePairs_map_sum f (b :: t)
    have h1 : consecutivePairs (a :: b :: t)
        = (a, b) :: consecutivePairs (b :: t) := rfl
    rw [h1, List.map_cons, List.sum_cons, ih]
    have h2 : (a :: b :: t).length - 1 = t.length + 1 := by simp
    have h3 : (b :: t).length - 1 = t.length := by simp
    rw [h2, h3, Finset.sum_range_succ']
    simp only [List.getD_cons_succ, List.getD_cons_zero]
    exact add_comm _ _

/-! ## Claims about section statistics -/

/-- C5: `compute_section_length` returns the sum of the Euclidean distances
between consecutive samples; it returns `0` for a section with zero or one
samples, and a section with samples at `(0,0,0)` and `(3,4,0)` yields `5`. -/
theorem compute_section_length_spec (s : Section) (a : Sample) :
    compute_section_length s
        = ∑ i in Finset.range (s.samples.length - 1),
            Real.sqrt
              (((s.samples.getD i default).point.x
                    - (s.samples.getD (i + 1) default).point.x) ^ 2
                + ((s.samples.getD i default).point.y
                    - (s.samples.getD (i + 1) default).point.y) ^ 2
                + ((s.samples.getD i default).point.z
                    - (s.samples.getD (i + 1) default).point.z) ^ 2)
      ∧ compute_section_length ⟨[]⟩ = 0
      ∧ compute_section_length ⟨[a]⟩ = 0
      ∧ compute_section_length ⟨[⟨⟨0, 0, 0⟩, 1⟩, ⟨⟨3, 4, 0⟩, 1⟩]⟩ = 5 := by
  refine ⟨?_, by simp [compute_section_length, consecutivePairs],
      by simp [compute_section_length, consecutivePairs], ?_⟩
  · rw [compute_section_length]
    refine (consecutivePairs_map_sum
        (fun p q => (Point.sub p.point q.point).length) s.samples).trans ?_
    refine Finset.sum_congr rfl (fun i _ => ?_)
    simp [Point.sub, Point.length]
  · have h25 : Real.sqrt 25 = 5 := sqrt_eq_of_sq (by norm_num) (by norm_num)
    simp only [compute_section_length, consecutivePairs, List.zip, List.tail,
      List.zipWith, List.map_cons, List.map_nil, List.sum_cons, List.sum_nil,
      Point.sub, Point.length]
    norm_num [h25]

/-- C6: `compute_section_volume` returns the sum over consecutive-sample
segments of `(pi/3) * L * (r0^2 + r0*r1 + r1^2)` with `L` the Euclidean
segment length; it returns `0` below two samples, and a single-segment
section with both radii `1` and length `2` yields `2 * pi`. -/
theorem compute_section_volume_spec (s : Section) (a : Sample) :
    compute_section_volume s
        = ∑ i in Finset.range (s.samples.length - 1),
            Real.pi / 3
              * (Point.sub (s.samples.getD i default).point
                  (s.samples.getD (i + 1) default).point).length
              * ((s.samples.getD i default).radius ^ 2
                  + (s.samples.getD i default).radius
                      * (s.samples.getD (i + 1) default).radius
                  + (s.samples.getD (i + 1) default).radius ^ 2)
      ∧ compute_section_volume ⟨[]⟩ = 0
      ∧ compute_section_volume ⟨[a]⟩ = 0
      ∧ compute_section_volume ⟨[⟨⟨0, 0, 0⟩, 1⟩, ⟨⟨0, 0, 2⟩, 1⟩]⟩
          = 2 * Real.pi := by
  refine ⟨?_, by simp [compute_section_volume],
      by simp [compute_section_volume], ?_⟩
  · rw [compute_section_volume]
    by_cases hlen : s.samples.length < 2
    · rw [if_pos hlen]
      have : s.samples.length - 1 = 0 := by omega
      rw [this]
      simp
    · rw [if_neg hlen]
      refine (consecutivePairs_map_sum
          (fun p q => (1 / 3) * Real.pi * (Point.sub p.point q.point).length
            * (p.radius * p.radius + p.radius * q.radius
                + q.radius * q.radius)) s.samples).trans ?_
      refine Finset.sum_congr rfl (fun i _ => ?_)
      ring
  · have h4 : Real.sqrt 4 = 2 := sqrt_eq_of_sq (by norm_num) (by norm_num)
    simp only [compute_section_volume, consecutivePairs, List.zip, List.tail,
      List.zipWith, List.map_cons, List.map_nil, List.sum_cons, List.sum_nil,
      Point.sub, Point.length, List.length_cons, List.length_nil]
    norm_num [h4]
    ring

/-- C4: `is_short_section` returns `true` iff the section has at least two
samples and its length is strictly below `2 * (r_first + r_last)`; a
two-sample section with radii `1` and `1` and length `1` yields `true`, and
sections with fewer than two samples yield `false`. -/
theorem is_short_section_spec (s : Section) (a : Sample) :
    (is_short_section s = true ↔
        2 ≤ s.samples.length
          ∧ compute_section_length s
              < 2 * ((s.samples.getD 0 default).radius
                  + (s.samples.getLast?.getD default).radius))
      ∧ is_short_section ⟨[⟨⟨0, 0, 0⟩, 1⟩, ⟨⟨1, 0, 0⟩, 1⟩]⟩ = true
      ∧ is_short_section ⟨[]⟩ = false
      ∧ is_short_section ⟨[a]⟩ = false := by
  refine ⟨⟨?_, ?_⟩, ?_, by simp [is_short_section], by simp [is_short_section]⟩
  · intro h
    unfold is_short_section at h
    split_ifs at h with h1 h2
    exact ⟨by omega, by linarith⟩
  · rintro ⟨hlen, hlt⟩
    unfold is_short_section
    rw [if_pos (by omega), if_pos (by linarith)]
  · have h1 : Real.sqrt 1 = 1 := Real.sqrt_one
    have hlen : compute_section_length ⟨[⟨⟨0, 0, 0⟩, 1⟩, ⟨⟨1, 0, 0⟩, 1⟩]⟩ = 1 := by
      simp only [compute_section_length, consecutivePairs, List.zip, List.tail,
        List.zipWith, List.map_cons, List.map_nil, List.sum_cons, List.sum_nil,
        Point.sub, Point.length]
      norm_num [h1]
    unfold is_short_section
    rw [if_pos (by simp), if_pos (by rw [hlen]; norm_num)]

/-- C1: on the two-sample section with points `(0,0,0)`, `(0,0,2)` and radii
`1`, `1` (segment length `L = 2`), `compute_section_surface_area` computes
`pi*(r0+r1)*sqrt((r0-r1)^2 + L) + pi*(r0^2+r1^2)` — the segment length is not
squared under the root — whereas the claimed formula
`pi*(r0+r1)*sqrt((r0-r1)^2 + L^2) + pi*(r0^2+r1^2)` gives `6*pi`, a different
value. -/
theorem compute_section_surface_area_missing_square :
    compute_section_surface_area ⟨[⟨⟨0, 0, 0⟩, 1⟩, ⟨⟨0, 0, 2⟩, 1⟩]⟩
        = Real.pi * (1 + 1) * Real.sqrt ((1 - 1) ^ 2 + 2)
            + Real.pi * (1 ^ 2 + 1 ^ 2)
      ∧ Real.pi * (1 + 1) * Real.sqrt ((1 - 1) ^ 2 + 2 ^ 2)
            + Real.pi * (1 ^ 2 + 1 ^ 2) = 6 * Real.pi
      ∧ Real.pi * (1 + 1) * Real.sqrt ((1 - 1) ^ 2 + 2)
            + Real.pi * (1 ^ 2 + 1 ^ 2) ≠ 6 * Real.pi := by
  have h4 : Real.sqrt 4 = 2 := sqrt_eq_of_sq (by norm_num) (by norm_num)
  refine ⟨?_, ?_, ?_⟩
  · simp only [compute_section_surface_area, consecutivePairs, List.zip,
      List.tail, List.zipWith, List.map_cons, List.map_nil, List.sum_cons,
      List.sum_nil, Point.sub, Point.length, List.length_cons, List.length_nil]
    norm_num [h4]
  · norm_num [h4]
    ring
  · have hs2 : Real.sqrt 2 < 2 := by
      have h := Real.sqrt_lt_sqrt (by norm_num : (0:ℝ) ≤ 2) (by norm_num : (2:ℝ) < 4)
      rwa [h4] at h
    have hpi : 0 < Real.pi := Real.pi_pos
    intro h
    rw [show ((1:ℝ) - 1) ^ 2 + 2 = 2 by norm_num] at h
    nlinarith [hs2, hpi]

/-! ## Claims about sample statistics -/

lemma foldl_min_le (rs : List ℝ) :
    ∀ r : ℝ, ∀ x ∈ r :: rs, List.foldl min r rs ≤ x := by
  induction rs with
  | nil =>
    intro r x hx
    rcases List.mem_cons.mp hx with h | h
    · simp [h]
    · simp at h
  | cons b t ih =>
    intro r x hx
    rw [List.foldl_cons]
    have hhead : List.foldl min (min r b) t ≤ min r b :=
      ih (min r b) (min r b) (List.mem_cons_self _ _)
    rcases List.mem_cons.mp hx with h | h
    · rw [h]
      exact le_trans hhead (min_le_left _ _)
    · rcases List.mem_cons.mp h with h0 | h0
      · rw [h0]
        exact le_trans hhead (min_le_right _ _)
      · exact ih (min r b) x (List.mem_cons_of_mem _ h0)

lemma foldl_min_mem (rs : List ℝ) :
    ∀ r : ℝ, List.foldl min r rs ∈ r :: rs := by
  induction rs with
  | nil => intro r; simp
  | cons b t ih =>
    intro r
    rw [List.foldl_cons]
    rcases List.mem_cons.mp (ih (min r b)) with h0 | h0
    · rw [h0]
      rcases min_choice r b with hc | hc <;> rw [hc]
      · exact List.mem_cons_self _ _
      · exact List.mem_cons_of_mem _ (List.mem_cons_self _ _)
    · exact List.mem_cons_of_mem _ (List.mem_cons_of_mem _ h0)

lemma foldl_max_ge (rs : List ℝ) :
    ∀ r : ℝ, ∀ x ∈ r :: rs, x ≤ List.foldl max r rs := by
  induction rs with
  | nil =>
    intro r x hx
    rcases List.mem_cons.mp hx with h | h
    · simp [h]
    · simp at h
  | cons b t ih =>
    intro r x hx
    rw [List.foldl_cons]
    have hhead : max r b ≤ List.foldl max (max r b) t :=
      ih (max r b) (max r b) (List.mem_cons_self _ _)
    rcases List.mem_cons.mp hx with h | h
    · rw [h]
      exact le_trans (le_max_left _ _) hhead
    · rcases List.mem_cons.mp h with h0 | h0
      · rw [h0]
        exact le_trans (le_max_right _ _) hhead
      · exact ih (max r b) x (List.mem_cons_of_mem _ h0)

lemma foldl_max_mem (rs : List ℝ) :
    ∀ r : ℝ, List.foldl max r rs ∈ r :: rs := by
  induction rs with
  | nil => intro r; simp
  | cons b t ih =>
    intro r
    rw [List.foldl_cons]
    rcases List.mem_cons.mp (ih (max r b)) with h0 | h0
    · rw [h0]
      rcases max_choice r b with hc | hc <;> rw [hc]
      · exact List.mem_cons_self _ _
      · exact List.mem_cons_of_mem _ (List.mem_cons_self _ _)
    · exact List.mem_cons_of_mem _ (List.mem_cons_of_mem _ h0)

lemma sectionsRadiiList_eq_nil_iff (l : List Section) :
    sectionsRadiiList l = [] ↔ ∀ sec ∈ l, sec.samples = [] := by
  induction l with
  | nil => simp [sectionsRadiiList]
  | cons sec rest ih =>
    simp only [sectionsRadiiList, List.flatMap_cons, List.append_eq_nil,
      List.map_eq_nil_iff, List.mem_cons] at *
    constructor
    · rintro ⟨hsec, hrest⟩
      rintro s (rfl | hs)
      · exact hsec
      · exact ih.mp hrest s hs
    · intro hall
      exact ⟨hall sec (Or.inl rfl), ih.mpr (fun s hs => hall s (Or.inr hs))⟩

/-- C10: the radius distribution has exactly one entry per sample: its length
equals `compute_total_of_number_samples_from_sections_list` on the same
sections list. -/
theorem radius_distribution_length_eq_total_samples (m : Morphology) :
    (compute_sample_radius_distribution m).length
      = compute_total_of_number_samples_from_sections_list m.sections_list := by
  rcases m with ⟨l⟩
  induction l with
  | nil => rfl
  | cons sec rest ih =>
    simp only [compute_sample_radius_distribution, List.flatMap_cons,
      List.length_append, List.length_map,
      compute_total_of_number_samples_from_sections_list, List.map_cons,
      List.sum_cons, compute_number_of_samples_in_section] at *
    omega

/-- C8: `analyze_samples_radii` fails (modelled as `none`) exactly when the
combined sample set is empty, i.e. every section has no samples. -/
theorem analyze_samples_radii_none_iff (l : List Section) (ε : ℝ) :
    analyze_samples_radii l ε = none ↔ ∀ sec ∈ l, sec.samples = [] := by
  rw [← sectionsRadiiList_eq_nil_iff]
  cases hr : sectionsRadiiList l with
  | nil => simp [analyze_samples_radii, hr]
  | cons r rs => simp [analyze_samples_radii, hr]

/-- C7: on a non-empty combined sample set, `analyze_samples_radii` returns
`some (min, max, sum/count, zero-count)` over the flattened radius
distribution (section order, then sample order). -/
theorem analyze_samples_radii_spec (l : List Section) (ε : ℝ)
    (h : sectionsRadiiList l ≠ []) :
    ∃ m M μ c, analyze_samples_radii l ε = some (m, M, μ, c)
      ∧ m ∈ sectionsRadiiList l
      ∧ (∀ x ∈ sectionsRadiiList l, m ≤ x)
      ∧ M ∈ sectionsRadiiList l
      ∧ (∀ x ∈ sectionsRadiiList l, x ≤ M)
      ∧ μ = (sectionsRadiiList l).sum / ((sectionsRadiiList l).length : ℝ)
      ∧ c = ((sectionsRadiiList l).filter (fun r => decide (r < ε))).length := by
  cases hr : sectionsRadiiList l with
  | nil => exact absurd hr h
  | cons r rs =>
    refine ⟨List.foldl min r rs, List.foldl max r rs,
      (r :: rs).sum / (((r :: rs).length : ℕ) : ℝ),
      ((r :: rs).filter (fun x => decide (x < ε))).length, ?_,
      foldl_min_mem rs r, foldl_min_le rs r, foldl_max_mem rs r,
      foldl_max_ge rs r, rfl, rfl⟩
    simp [analyze_samples_radii, hr]

/-- Non-vacuity witness for C7: the radius distribution `[0.0001, 0.5, 1.0]`
with `epsilon = 0.001`. -/
theorem analyze_samples_radii_spec_witness :
    sectionsRadiiList
        [⟨[⟨⟨0, 0, 0⟩, 1 / 10000⟩, ⟨⟨0, 0, 0⟩, 1 / 2⟩, ⟨⟨0, 0, 0⟩, 1⟩]⟩] ≠ []
      ∧ ∃ m M μ c,
          analyze_samples_radii
              [⟨[⟨⟨0, 0, 0⟩, 1 / 10000⟩, ⟨⟨0, 0, 0⟩, 1 / 2⟩, ⟨⟨0, 0, 0⟩, 1⟩]⟩]
              (1 / 1000) = some (m, M, μ, c)
        ∧ m ∈ sectionsRadiiList
            [⟨[⟨⟨0, 0, 0⟩, 1 / 10000⟩, ⟨⟨0, 0, 0⟩, 1 / 2⟩, ⟨⟨0, 0, 0⟩, 1⟩]⟩]
        ∧ (∀ x ∈ sectionsRadiiList
            [⟨[⟨⟨0, 0, 0⟩, 1 / 10000⟩, ⟨⟨0, 0, 0⟩, 1 / 2⟩, ⟨⟨0, 0, 0⟩, 1⟩]⟩],
            m ≤ x)
        ∧ M ∈ sectionsRadiiList
            [⟨[⟨⟨0, 0, 0⟩, 1 / 10000⟩, ⟨⟨0, 0, 0⟩, 1 / 2⟩, ⟨⟨0, 0, 0⟩, 1⟩]⟩]
        ∧ (∀ x ∈ sectionsRadiiList
            [⟨[⟨⟨0, 0, 0⟩, 1 / 10000⟩, ⟨⟨0, 0, 0⟩, 1 / 2⟩, ⟨⟨0, 0, 0⟩, 1⟩]⟩],
            x ≤ M)
        ∧ μ = (sectionsRadiiList
              [⟨[⟨⟨0, 0, 0⟩, 1 / 10000⟩, ⟨⟨0, 0, 0⟩, 1 / 2⟩, ⟨⟨0, 0, 0⟩, 1⟩]⟩]).sum
            / ((sectionsRadiiList
              [⟨[⟨⟨0, 0, 0⟩, 1 / 10000⟩, ⟨⟨0, 0, 0⟩, 1 / 2⟩,
                  ⟨⟨0, 0, 0⟩, 1⟩]⟩]).length : ℝ)
        ∧ c = ((sectionsRadiiList
              [⟨[⟨⟨0, 0, 0⟩, 1 / 10000⟩, ⟨⟨0, 0, 0⟩, 1 / 2⟩,
                  ⟨⟨0, 0, 0⟩, 1⟩]⟩]).filter
              (fun r => decide (r < 1 / 1000))).length := by
  have h : sectionsRadiiList
      [⟨[⟨⟨0, 0, 0⟩, 1 / 10000⟩, ⟨⟨0, 0, 0⟩, 1 / 2⟩, ⟨⟨0, 0, 0⟩, 1⟩]⟩] ≠ [] := by
    simp [sectionsRadiiList]
  exact ⟨h, analyze_samples_radii_spec _ (1 / 1000) h⟩

/-- C2: with every section non-empty, the correction pass maps each section to
itself with every sub-`epsilon` radius replaced by the section's original mean
radius, all other samples kept unchanged. -/
theorem correct_samples_with_zero_radii_spec (l : List Section) (ε : ℝ)
    (h : ∀ sec ∈ l, sec.samples ≠ []) :
    List.Forall₂ (fun sec sec' =>
      List.Forall₂ (fun smp smp' =>
        smp'.point = smp.point
          ∧ (smp.radius < ε →
              smp'.radius = (sec.samples.map (fun t => t.radius)).sum
                  / (sec.samples.length : ℝ))
          ∧ (¬ smp.radius < ε → smp' = smp))
        sec.samples sec'.samples)
      l (correct_samples_with_zero_radii l ε) := by
  induction l with
  | nil => exact List.Forall₂.nil
  | cons sec rest ih =>
    have hsec := h sec (List.mem_cons_self _ _)
    have hlen : ¬ sec.samples.length = 0 :=
      fun h0 => hsec (List.length_eq_zero.mp h0)
    rw [correct_samples_with_zero_radii, if_neg hlen]
    refine List.Forall₂.cons ?_ (ih (fun s hs => h s (List.mem_cons_of_mem _ hs)))
    unfold correctSectionSamples
    rw [List.forall₂_map_right_iff, List.forall₂_same]
    intro smp hsmp
    by_cases hr : smp.radius < ε
    · simp [hr]
    · simp [hr]

/-- Non-vacuity witness for C2: one section with radii `1/2` and `2` under
`epsilon = 1`; the first sample is rewritten to the mean `5/4`, the second is
kept. -/
theorem correct_samples_with_zero_radii_spec_witness :
    (∀ sec ∈ ([⟨[⟨⟨0, 0, 0⟩, 1 / 2⟩, ⟨⟨0, 0, 0⟩, 2⟩]⟩] : List Section),
        sec.samples ≠ [])
      ∧ List.Forall₂ (fun sec sec' =>
          List.Forall₂ (fun smp smp' =>
            smp'.point = smp.point
              ∧ (smp.radius < 1 →
                  smp'.radius = (sec.samples.map (fun t => t.radius)).sum
                      / (sec.samples.length : ℝ))
              ∧ (¬ smp.radius < 1 → smp' = smp))
            sec.samples sec'.samples)
          ([⟨[⟨⟨0, 0, 0⟩, 1 / 2⟩, ⟨⟨0, 0, 0⟩, 2⟩]⟩] : List Section)
          (correct_samples_with_zero_radii
            ([⟨[⟨⟨0, 0, 0⟩, 1 / 2⟩, ⟨⟨0, 0, 0⟩, 2⟩]⟩] : List Section) 1) := by
  have h : ∀ sec ∈ ([⟨[⟨⟨0, 0, 0⟩, 1 / 2⟩, ⟨⟨0, 0, 0⟩, 2⟩]⟩] : List Section),
      sec.samples ≠ [] := by
    intro sec hs
    rw [List.mem_singleton] at hs
    rw [hs]
    simp
  exact ⟨h, correct_samples_with_zero_radii_spec _ 1 h⟩

/-- C3: when the section list splits as `l1 ++ sec :: l2` with every section
of `l1` non-empty and `sec` empty, the correction pass corrects exactly the
sections of `l1` and returns `sec` and everything after it untouched. -/
theorem correct_samples_with_zero_radii_stops_at_empty
    (l1 l2 : List Section) (sec : Section) (ε : ℝ)
    (h1 : ∀ s ∈ l1, s.samples ≠ []) (h2 : sec.samples = []) :
    correct_samples_with_zero_radii (l1 ++ sec :: l2) ε
      = l1.map (correctSectionSamples ε) ++ sec :: l2 := by
  induction l1 with
  | nil =>
    rw [List.nil_append, List.map_nil, List.nil_append,
      correct_samples_with_zero_radii, if_pos (by rw [h2]; rfl)]
  | cons s t ih =>
    have hs := h1 s (List.mem_cons_self _ _)
    have hlen : ¬ s.samples.length = 0 :=
      fun h0 => hs (List.length_eq_zero.mp h0)
    rw [List.cons_append, correct_samples_with_zero_radii, if_neg hlen,
      ih (fun x hx => h1 x (List.mem_cons_of_mem _ hx)), List.map_cons,
      List.cons_append]

/-- Non-vacuity witness for C3: a non-empty section, then an empty section,
then a further section; the pass corrects the first and leaves the rest. -/
theorem correct_samples_with_zero_radii_stops_at_empty_witness :
    (∀ s ∈ ([⟨[⟨⟨0, 0, 0⟩, 1⟩]⟩] : List Section), s.samples ≠ [])
      ∧ (⟨[]⟩ : Section).samples = []
      ∧ correct_samples_with_zero_radii
            ([⟨[⟨⟨0, 0, 0⟩, 1⟩]⟩] ++ (⟨[]⟩ : Section) :: [⟨[⟨⟨0, 0, 0⟩, 0⟩]⟩]) 1
          = ([⟨[⟨⟨0, 0, 0⟩, 1⟩]⟩] : List Section).map (correctSectionSamples 1)
              ++ (⟨[]⟩ : Section) :: [⟨[⟨⟨0, 0, 0⟩, 0⟩]⟩] := by
  have h1 : ∀ s ∈ ([⟨[⟨⟨0, 0, 0⟩, 1⟩]⟩] : List Section), s.samples ≠ [] := by
    intro s hs
    rw [List.mem_singleton] at hs
    rw [hs]
    simp
  exact ⟨h1, rfl,
    correct_samples_with_zero_radii_stops_at_empty _ _ _ 1 h1 rfl⟩

/-! ## Claims about the file writers -/

lemma write_foldl_eq_flatten {α : Type} (str : α → List Char) :
    ∀ (d : List α) (acc : List Char),
      d.foldl (fun file_handle e => file_handle ++ (str e ++ ['\n'])) acc
        = acc ++ (d.map (fun e => str e ++ ['\n'])).flatten
  | [], acc => by simp
  | e :: t, acc => by
    rw [List.foldl_cons, List.map_cons, List.flatten_cons,
      write_foldl_eq_flatten str t (acc ++ (str e ++ ['\n']))]
    simp [List.append_assoc]

lemma splitLines_append (rest : List Char) :
    ∀ s : List Char, '\n' ∉ s →
      splitLines (s ++ '\n' :: rest) = s :: splitLines rest
  | [], _ => by simp [splitLines]
  | c :: s, h => by
    have hc : ¬ c = '\n' := fun hc => h (hc ▸ List.mem_cons_self _ _)
    have hs : '\n' ∉ s := fun hm => h (List.mem_cons_of_mem _ hm)
    rw [List.cons_append, splitLines, if_neg hc,
      splitLines_append rest s hs]

lemma splitLines_flatten_map {α : Type} (str : α → List Char)
    (parse : List Char → α) :
    ∀ d : List α, (∀ e ∈ d, parse (str e) = e) → (∀ e ∈ d, '\n' ∉ str e) →
      (splitLines ((d.map (fun e => str e ++ ['\n'])).flatten)).map parse = d
  | [], _, _ => by simp [splitLines]
  | e :: t, h1, h2 => by
    rw [List.map_cons, List.flatten_cons]
    have hassoc : (str e ++ ['\n']) ++ (t.map (fun x => str x ++ ['\n'])).flatten
        = str e ++ ('\n' :: (t.map (fun x => str x ++ ['\n'])).flatten) := by
      simp
    rw [hassoc, splitLines_append _ (str e) (h2 e (List.mem_cons_self _ _)),
      List.map_cons, h1 e (List.mem_cons_self _ _),
      splitLines_flatten_map str parse t
        (fun x hx => h1 x (List.mem_cons_of_mem _ hx))
        (fun x hx => h2 x (List.mem_cons_of_mem _ hx))]

/-- C9: the file written by `write_distribution_to_file` is exactly the
concatenation, in order, of each element's string form followed by a newline;
splitting it back into lines and parsing each line recovers the original
sequence, whenever the stringification is newline-free and inverted by the
parser on the written elements. -/
theorem write_distribution_round_trip {α : Type} (d : List α)
    (str : α → List Char) (parse : List Char → α)
    (h1 : ∀ e ∈ d, parse (str e) = e) (h2 : ∀ e ∈ d, '\n' ∉ str e) :
    write_distribution_to_file d str
        = (d.map (fun e => str e ++ ['\n'])).flatten
      ∧ (splitLines (write_distribution_to_file d str)).map parse = d := by
  have hw : write_distribution_to_file d str
      = (d.map (fun e => str e ++ ['\n'])).flatten := by
    rw [write_distribution_to_file, write_foldl_eq_flatten, List.nil_append]
  exact ⟨hw, by rw [hw]; exact splitLines_flatten_map str parse d h1 h2⟩

/-- Non-vacuity witness for C9: the sequence `[2, 0, 3]` written with a
newline-free, invertible stringification round-trips. -/
theorem write_distribution_round_trip_witness :
    (∀ e ∈ ([2, 0, 3] : List ℕ),
        (fun cs : List Char => cs.length) ((fun n : ℕ => List.replicate n 'x') e) = e)
      ∧ (∀ e ∈ ([2, 0, 3] : List ℕ), '\n' ∉ (fun n : ℕ => List.replicate n 'x') e)
      ∧ (write_distribution_to_file ([2, 0, 3] : List ℕ)
            (fun n : ℕ => List.replicate n 'x')
          = (([2, 0, 3] : List ℕ).map
              (fun e => (fun n : ℕ => List.replicate n 'x') e ++ ['\n'])).flatten
        ∧ (splitLines (write_distribution_to_file ([2, 0, 3] : List ℕ)
              (fun n : ℕ => List.replicate n 'x'))).map
            (fun cs : List Char => cs.length) = [2, 0, 3]) := by
  have h1 : ∀ e ∈ ([2, 0, 3] : List ℕ),
      (fun cs : List Char => cs.length) ((fun n : ℕ => List.replicate n 'x') e) = e := by
    decide
  have h2 : ∀ e ∈ ([2, 0, 3] : List ℕ),
      '\n' ∉ (fun n : ℕ => List.replicate n 'x') e := by
    decide
  exact ⟨h1, h2, write_distribution_round_trip _ _ _ h1 h2⟩

end VMV
